import Mathlib

/-!
Verification of the parameter-sweep and fidelity-extraction pipeline of the
Master_thesis_QEC_simulation repository.

The Python sources embedded here are
`simulator_program/data_analysis_tools.py` (the functions `_get_array_indexes`,
`monoExp`, `get_error_rate`, `sweep_parameter_space`, `fidelity_from_scratch`,
`fid_single_qubit`) and `idle_comparison.py` (the density-matrix projection
functions `project_dm_to_logical_subspace_V1` / `_V3`).

Calls into the external quantum-simulation library (qiskit circuit
construction, backend execution, `scipy.optimize.curve_fit`) are modelled as
oracle parameters: the embedded code is the repository's own control flow and
arithmetic around those calls.  Python floats are modelled as real numbers,
numpy arrays indexed by tuples as functions `List ℕ → ℝ`, and code paths that
raise (an out-of-bounds index, an unbound local) return `none`.
-/

namespace QecSim

open Matrix

/-! ### `_get_array_indexes` (data_analysis_tools.py, lines 374-383)

The Python loop walks the index array from right to left; at position `i` it
divides the value at position `i+1` by `sweep_lengths[i+1]` whenever that value
is too large, keeping the quotient at `i` and the remainder at `i+1`.
`unravelGo` is that loop, given the lengths strictly to the right of the
leading position; it returns the value left at the leading position together
with the digits to its right.  `indexes[-1] = index` on the empty array raises
`IndexError`, hence the `Option` in `getArrayIndexes`. -/

def unravelGo (index : ℕ) : List ℕ → ℕ × List ℕ
  | [] => (index, [])
  | l :: rest =>
      let p := unravelGo index rest
      let q := if p.1 ≥ l then (p.1 / l, p.1 % l) else (0, p.1)
      (q.1, q.2 :: p.2)

/-- Embedding of `_get_array_indexes(index, sweep_lengths)`. -/
def getArrayIndexes (index : ℕ) (sweepLengths : List ℕ) : Option (List ℕ) :=
  match sweepLengths with
  | [] => none
  | _ :: rest =>
      let p := unravelGo index rest
      some (p.1 :: p.2)

/-- Closed form of the digits produced to the right of the leading position:
the `i`-th digit is `index` divided by the product of the lengths beyond
position `i`, reduced modulo the length at position `i`. -/
def modDigits (index : ℕ) : List ℕ → List ℕ
  | [] => []
  | n :: ns => (index / ns.prod) % n :: modDigits index ns

/-- The multi-index `_get_array_indexes` computes: the leading digit is the
plain quotient (the Python loop never reduces position 0), the rest are
`modDigits`. -/
def rowDigits (index : ℕ) : List ℕ → List ℕ
  | [] => []
  | _ :: rest => index / rest.prod :: modDigits index rest

/-- Row-major flattening: the claim's `sum over i of t[i] times the product of
sweep_lengths[i+1:]`. -/
def flattenIndex : List ℕ → List ℕ → ℕ
  | t :: ts, _ :: ls => t * ls.prod + flattenIndex ts ls
  | _, _ => 0

/-- The guarded carry of the loop body is the plain Euclidean carry: when the
guard fails the value is already reduced, so quotient `0` and an unchanged
remainder agree with `/` and `%`. -/
theorem carryStep_eq (v l : ℕ) :
    (if v ≥ l then (v / l, v % l) else ((0 : ℕ), v)) = (v / l, v % l) := by
  by_cases h : v ≥ l
  · rw [if_pos h]
  · push_neg at h
    rw [if_neg (not_le.mpr h), Nat.div_eq_of_lt h, Nat.mod_eq_of_lt h]

theorem unravelGo_eq (rest : List ℕ) (index : ℕ) :
    unravelGo index rest = (index / rest.prod, modDigits index rest) := by
  induction rest with
  | nil => simp [unravelGo, modDigits]
  | cons l rest ih =>
      simp only [unravelGo, ih, carryStep_eq, modDigits, List.prod_cons]
      rw [Nat.div_div_eq_div_mul, Nat.mul_comm rest.prod l]

theorem getArrayIndexes_eq (index : ℕ) (L : List ℕ) (hL : L ≠ []) :
    getArrayIndexes index L = some (rowDigits index L) := by
  cases L with
  | nil => exact absurd rfl hL
  | cons l rest => simp [getArrayIndexes, rowDigits, unravelGo_eq]

theorem flattenIndex_modDigits (L : List ℕ) (index : ℕ) :
    flattenIndex (modDigits index L) L = index % L.prod := by
  induction L with
  | nil => simp [modDigits, flattenIndex, Nat.mod_one]
  | cons n ns ih =>
      simp only [modDigits, flattenIndex, ih, List.prod_cons]
      rw [Nat.mul_comm n ns.prod, Nat.mod_mul]
      ring

theorem modDigits_forall_lt (L : List ℕ) (hL : ∀ l ∈ L, 0 < l) (index : ℕ) :
    List.Forall₂ (· < ·) (modDigits index L) L := by
  induction L with
  | nil => simp [modDigits]
  | cons n ns ih =>
      refine List.Forall₂.cons ?_ (ih fun l hl => hL l (List.mem_cons_of_mem _ hl))
      exact Nat.mod_lt _ (hL n (List.mem_cons_self _ _))

theorem rowDigits_forall_lt (l : ℕ) (rest : List ℕ)
    (hpos : ∀ x ∈ l :: rest, 0 < x) (index : ℕ)
    (hidx : index < (l :: rest).prod) :
    List.Forall₂ (· < ·) (rowDigits index (l :: rest)) (l :: rest) := by
  have hrest : 0 < rest.prod :=
    List.prod_pos fun x hx => hpos x (List.mem_cons_of_mem _ hx)
  refine List.Forall₂.cons ?_
    (modDigits_forall_lt rest (fun x hx => hpos x (List.mem_cons_of_mem _ hx)) index)
  rw [Nat.div_lt_iff_lt_mul hrest]
  rw [List.prod_cons] at hidx
  omega

theorem flattenIndex_rowDigits (l : ℕ) (rest : List ℕ) (index : ℕ) :
    flattenIndex (rowDigits index (l :: rest)) (l :: rest) = index := by
  simp only [rowDigits, flattenIndex, flattenIndex_modDigits]
  conv_lhs => rw [Nat.mul_comm]
  exact Nat.div_add_mod index rest.prod

theorem modDigits_add_mul (L : List ℕ) (k m : ℕ) :
    modDigits (k + m * L.prod) L = modDigits k L := by
  induction L generalizing m with
  | nil => simp [modDigits]
  | cons n ns ih =>
      simp only [modDigits, List.prod_cons]
      rcases Nat.eq_zero_or_pos ns.prod with hp | hp
      · simp [hp]
      · rw [show k + m * (n * ns.prod) = k + m * n * ns.prod by ring,
          Nat.add_mul_div_right _ _ hp, Nat.add_mul_mod_self_right, ih (m * n)]

theorem flattenIndex_lt (ts ls : List ℕ) (h : List.Forall₂ (· < ·) ts ls) :
    flattenIndex ts ls < ls.prod := by
  induction h with
  | nil => simp [flattenIndex]
  | @cons t l ts ls ht _ ih =>
      simp only [flattenIndex, List.prod_cons]
      calc t * ls.prod + flattenIndex ts ls < t * ls.prod + ls.prod := by omega
        _ = (t + 1) * ls.prod := by ring
        _ ≤ l * ls.prod := Nat.mul_le_mul_right _ ht

theorem modDigits_flattenIndex (ts ls : List ℕ) (h : List.Forall₂ (· < ·) ts ls) :
    modDigits (flattenIndex ts ls) ls = ts := by
  induction h with
  | nil => simp [modDigits, flattenIndex]
  | @cons t l ts ls ht hrest ih =>
      have hf : flattenIndex ts ls < ls.prod := flattenIndex_lt ts ls hrest
      have hp : 0 < ls.prod := by omega
      simp only [modDigits, flattenIndex]
      have h1 : (t * ls.prod + flattenIndex ts ls) / ls.prod = t := by
        rw [Nat.add_comm, Nat.add_mul_div_right _ _ hp, Nat.div_eq_of_lt hf, Nat.zero_add]
      rw [h1, Nat.mod_eq_of_lt ht, Nat.add_comm, modDigits_add_mul, ih]

theorem rowDigits_flattenIndex (t l : ℕ) (ts ls : List ℕ)
    (h : List.Forall₂ (· < ·) (t :: ts) (l :: ls)) :
    rowDigits (flattenIndex (t :: ts) (l :: ls)) (l :: ls) = t :: ts := by
  rcases h with _ | ⟨ht, hrest⟩
  have hf : flattenIndex ts ls < ls.prod := flattenIndex_lt ts ls hrest
  have hp : 0 < ls.prod := by omega
  simp only [rowDigits, flattenIndex]
  have h1 : (t * ls.prod + flattenIndex ts ls) / ls.prod = t := by
    rw [Nat.add_comm, Nat.add_mul_div_right _ _ hp, Nat.div_eq_of_lt hf, Nat.zero_add]
  rw [h1, Nat.add_comm, modDigits_add_mul, modDigits_flattenIndex ts ls hrest]

/-- C3 (counterexample): for the empty list of sweep lengths, whose product is
`1` so that `index = 0` is in the claim's range, `_get_array_indexes` raises
`IndexError` at `indexes[-1] = index` (modelled as `none`) rather than
returning the empty row-major multi-index. -/
theorem getArrayIndexes_empty_counterexample :
    getArrayIndexes 0 [] = none ∧ (0 : ℕ) < ([] : List ℕ).prod := by
  constructor
  · rfl
  · simp

/-- C3 (amended): for every NONEMPTY list of positive sweep lengths and every
`index` below their product, `_get_array_indexes` returns the row-major
multi-index of `index`: a tuple of the same length, pointwise below the
lengths, whose row-major flattening is `index` again. -/
theorem getArrayIndexes_unravels (L : List ℕ) (index : ℕ) (hL : L ≠ [])
    (hpos : ∀ l ∈ L, 0 < l) (hidx : index < L.prod) :
    getArrayIndexes index L = some (rowDigits index L) ∧
    (rowDigits index L).length = L.length ∧
    List.Forall₂ (· < ·) (rowDigits index L) L ∧
    flattenIndex (rowDigits index L) L = index := by
  cases L with
  | nil => exact absurd rfl hL
  | cons l rest =>
      have hforall := rowDigits_forall_lt l rest hpos index hidx
      exact ⟨getArrayIndexes_eq index _ hL, hforall.length_eq, hforall,
        flattenIndex_rowDigits l rest index⟩

/-- C3 (witness): at `index = 5` with lengths `[2, 3]` the function returns
`(1, 2)`, the row-major multi-index of `5`. -/
theorem getArrayIndexes_unravels_witness :
    ([2, 3] : List ℕ) ≠ [] ∧ (∀ l ∈ ([2, 3] : List ℕ), 0 < l) ∧
      5 < ([2, 3] : List ℕ).prod ∧
      (getArrayIndexes 5 [2, 3] = some (rowDigits 5 [2, 3]) ∧
       (rowDigits 5 [2, 3]).length = ([2, 3] : List ℕ).length ∧
       List.Forall₂ (· < ·) (rowDigits 5 [2, 3]) [2, 3] ∧
       flattenIndex (rowDigits 5 [2, 3]) [2, 3] = 5) := by
  refine ⟨by decide, by decide, by decide, getArrayIndexes_unravels [2, 3] 5 (by decide)
    (by decide) (by decide)⟩

/-! ### `monoExp` (data_analysis_tools.py, lines 371-372) -/

/-- Embedding of `monoExp(t, T, c, A) = (A-c)*np.exp(-t/T) + c`. -/
noncomputable def monoExp (t T c A : ℝ) : ℝ := (A - c) * Real.exp (-t / T) + c

/-- C7: for `T > 0` and `A > c` the fitted decay model is strictly decreasing
in `t` on `t ≥ 0`, equals `A` at `t = 0`, and stays above its asymptote `c`. -/
theorem monoExp_decay (T c A t t₁ t₂ : ℝ) (hT : 0 < T) (hA : c < A)
    (ht₁ : 0 ≤ t₁) (hlt : t₁ < t₂) :
    monoExp t₂ T c A < monoExp t₁ T c A ∧ monoExp 0 T c A = A ∧
      c < monoExp t T c A := by
  have hAc : 0 < A - c := sub_pos.mpr hA
  refine ⟨?_, ?_, ?_⟩
  · have hexp : Real.exp (-t₂ / T) < Real.exp (-t₁ / T) := by
      apply Real.exp_lt_exp.mpr
      apply div_lt_div_of_pos_right _ hT
      linarith
    have hmul := mul_lt_mul_of_pos_left hexp hAc
    simp only [monoExp]
    linarith
  · simp [monoExp]
  · have hpos := mul_pos hAc (Real.exp_pos (-t / T))
    simp only [monoExp]
    linarith

/-- C7 (witness): instantiation at `T = 1`, `c = 0`, `A = 1`, `t = 0`,
`t₁ = 0`, `t₂ = 1`. -/
theorem monoExp_decay_witness :
    (0 : ℝ) < 1 ∧ (0 : ℝ) < 1 ∧ (0 : ℝ) ≤ 0 ∧ (0 : ℝ) < 1 ∧
      (monoExp 1 1 0 1 < monoExp 0 1 0 1 ∧ monoExp 0 1 0 1 = 1 ∧
        (0 : ℝ) < monoExp 0 1 0 1) :=
  ⟨by norm_num, by norm_num, le_refl 0, by norm_num,
    monoExp_decay 1 0 1 0 0 1 (by norm_num) (by norm_num) (le_refl 0) (by norm_num)⟩

/-! ### `get_error_rate` (data_analysis_tools.py, lines 385-407)

With `time=None` the code builds `x_D = np.ones((n,2))` and adds `i` to
`x_D[i][1]`, so row `i` is `[1, 1+i]`; it then solves the normal equations by
the explicit formula `inv(X^T X) @ X.T @ y` with `y = log(fidelity[1:])`, and
accumulates `MSE = sum((exp(theta0)*exp((cycle+1)*theta1) - fidelity[cycle+1])^2)`. -/

/-- Row `i` of the design matrix: `[1, 1 + i]`. -/
noncomputable def designMatrix (n : ℕ) : Matrix (Fin n) (Fin 2) ℝ :=
  Matrix.of fun i => ![(1 : ℝ), 1 + ((i : ℕ) : ℝ)]

/-- `y = np.log(fidelity[1:])`. -/
noncomputable def logFid (fid : List ℝ) : Fin (fid.length - 1) → ℝ :=
  fun i => Real.log (fid.getD ((i : ℕ) + 1) 0)

/-- Embedding of `get_error_rate(fidelity, time=None)`: returns `theta`
computed as `np.dot(np.dot(np.linalg.inv(np.dot(x_D.T, x_D)), x_D.T), y)`
together with the accumulated `MSE`. -/
noncomputable def getErrorRate (fid : List ℝ) : (Fin 2 → ℝ) × ℝ :=
  let X := designMatrix (fid.length - 1)
  let theta := ((Xᵀ * X)⁻¹ * Xᵀ) *ᵥ logFid fid
  (theta, ∑ i : Fin (fid.length - 1),
    (Real.exp (theta 0) * Real.exp ((((i : ℕ) : ℝ) + 1) * theta 1)
      - fid.getD ((i : ℕ) + 1) 0) ^ 2)

/-- The ordinary-least-squares solution `(X^T X)^{-1} X^T y` as the claim
words it (matrix inverse applied to the vector `X^T y`). -/
noncomputable def olsSolution (fid : List ℝ) : Fin 2 → ℝ :=
  let X := designMatrix (fid.length - 1)
  (Xᵀ * X)⁻¹ *ᵥ (Xᵀ *ᵥ logFid fid)

theorem sumOne (n : ℕ) : ∑ _i : Fin n, (1 : ℝ) = n := by simp

theorem sumLin (n : ℕ) :
    ∑ i : Fin n, (1 + ((i : ℕ) : ℝ)) = n * (n + 1) / 2 := by
  induction n with
  | zero => simp
  | succ n ih =>
      rw [Fin.sum_univ_castSucc]
      simp only [Fin.coe_castSucc, Fin.val_last]
      rw [ih]
      push_cast
      ring

theorem sumSq (n : ℕ) :
    ∑ i : Fin n, (1 + ((i : ℕ) : ℝ)) * (1 + ((i : ℕ) : ℝ))
      = n * (n + 1) * (2 * n + 1) / 6 := by
  induction n with
  | zero => simp
  | succ n ih =>
      rw [Fin.sum_univ_castSucc]
      simp only [Fin.coe_castSucc, Fin.val_last]
      rw [ih]
      push_cast
      ring

theorem XtX_apply (n : ℕ) (a b : Fin 2) :
    ((designMatrix n)ᵀ * designMatrix n) a b
      = ∑ i : Fin n, designMatrix n i a * designMatrix n i b := by
  simp [Matrix.mul_apply, Matrix.transpose_apply]

theorem XtX_det (n : ℕ) :
    ((designMatrix n)ᵀ * designMatrix n).det
      = (n : ℝ) ^ 2 * ((n : ℝ) ^ 2 - 1) / 12 := by
  rw [Matrix.det_fin_two, XtX_apply, XtX_apply, XtX_apply, XtX_apply]
  simp only [designMatrix, Matrix.of_apply, Matrix.cons_val_zero, Matrix.cons_val_one,
    Matrix.head_cons, one_mul, mul_one]
  rw [sumOne, sumLin, sumSq]
  ring

theorem XtX_isUnit (n : ℕ) (hn : 2 ≤ n) :
    IsUnit ((designMatrix n)ᵀ * designMatrix n).det := by
  rw [XtX_det]
  have h2 : (2 : ℝ) ≤ (n : ℝ) := by exact_mod_cast hn
  have hpos : (0 : ℝ) < (n : ℝ) ^ 2 * ((n : ℝ) ^ 2 - 1) / 12 := by
    apply div_pos _ (by norm_num)
    apply mul_pos (by nlinarith) (by nlinarith)
  exact isUnit_iff_ne_zero.mpr (ne_of_gt hpos)

/-- C4: for a fidelity list of length `n+1` with `n ≥ 2` and positive entries,
the `theta` returned by `get_error_rate(fidelity, time=None)` is the
ordinary-least-squares solution `(X^T X)^{-1} X^T y` for the design matrix
with rows `[1, 1+i]` and `y = log(fidelity[1:])` — in particular `X^T X` is
genuinely invertible there, so `theta` satisfies the normal equations — and
the second return value is the sum over cycles of the squared differences
between `exp(theta0)*exp((cycle+1)*theta1)` and `fidelity[cycle+1]`. -/
theorem getErrorRate_ols (fid : List ℝ) (hlen : 3 ≤ fid.length)
    (hpos : ∀ x ∈ fid, 0 < x) :
    (getErrorRate fid).1 = olsSolution fid ∧
    ((designMatrix (fid.length - 1))ᵀ * designMatrix (fid.length - 1)) *ᵥ
      (getErrorRate fid).1 = (designMatrix (fid.length - 1))ᵀ *ᵥ logFid fid ∧
    (getErrorRate fid).2 = ∑ i : Fin (fid.length - 1),
      (Real.exp ((getErrorRate fid).1 0)
        * Real.exp ((((i : ℕ) : ℝ) + 1) * (getErrorRate fid).1 1)
        - fid.getD ((i : ℕ) + 1) 0) ^ 2 := by
  have hinv := XtX_isUnit (fid.length - 1) (by omega)
  refine ⟨?_, ?_, rfl⟩
  · simp [getErrorRate, olsSolution, Matrix.mulVec_mulVec]
  · show ((designMatrix (fid.length - 1))ᵀ * designMatrix (fid.length - 1)) *ᵥ
      ((((designMatrix (fid.length - 1))ᵀ * designMatrix (fid.length - 1))⁻¹ *
        (designMatrix (fid.length - 1))ᵀ) *ᵥ logFid fid) = _
    rw [Matrix.mulVec_mulVec, ← Matrix.mul_assoc, Matrix.mul_nonsing_inv _ hinv,
      Matrix.one_mul]

/-- C4 (witness): instantiation at the fidelity list `[1, 1, 1]`. -/
theorem getErrorRate_ols_witness :
    3 ≤ ([1, 1, 1] : List ℝ).length ∧ (∀ x ∈ ([1, 1, 1] : List ℝ), 0 < x) ∧
    ((getErrorRate [1, 1, 1]).1 = olsSolution [1, 1, 1] ∧
     ((designMatrix (([1, 1, 1] : List ℝ).length - 1))ᵀ *
       designMatrix (([1, 1, 1] : List ℝ).length - 1)) *ᵥ
       (getErrorRate [1, 1, 1]).1
       = (designMatrix (([1, 1, 1] : List ℝ).length - 1))ᵀ *ᵥ logFid [1, 1, 1] ∧
     (getErrorRate [1, 1, 1]).2 = ∑ i : Fin (([1, 1, 1] : List ℝ).length - 1),
       (Real.exp ((getErrorRate [1, 1, 1]).1 0)
         * Real.exp ((((i : ℕ) : ℝ) + 1) * (getErrorRate [1, 1, 1]).1 1)
         - ([1, 1, 1] : List ℝ).getD ((i : ℕ) + 1) 0) ^ 2) :=
  ⟨by norm_num, by intro x hx; simp at hx; simp [hx],
    getErrorRate_ols [1, 1, 1] (by norm_num) (by intro x hx; simp at hx; simp [hx])⟩

/-! ### `itertools.product`

`sweep_parameter_space` iterates `itertools.product(*noise_parameters)`:
lexicographic order with the rightmost factor varying fastest, so the `k`-th
combination sits at the row-major multi-index of `k`. -/

def cartAux {α : Type} : List α → List (List α) → List (List α)
  | [], _ => []
  | x :: xs, tails => tails.map (x :: ·) ++ cartAux xs tails

/-- `itertools.product` over a list of factor lists. -/
def cartProd {α : Type} : List (List α) → List (List α)
  | [] => [[]]
  | l :: rest => cartAux l (cartProd rest)

theorem cartAux_length {α : Type} (l : List α) (tails : List (List α)) :
    (cartAux l tails).length = l.length * tails.length := by
  induction l with
  | nil => simp [cartAux]
  | cons x xs ih =>
      simp only [cartAux, List.length_append, List.length_map, ih, List.length_cons]
      ring

theorem cartProd_length {α : Type} (L : List (List α)) :
    (cartProd L).length = (L.map List.length).prod := by
  induction L with
  | nil => simp [cartProd]
  | cons l rest ih => simp [cartProd, cartAux_length, ih]

theorem getD_map_cons {α : Type} (x : α) (tails : List (List α)) (k : ℕ)
    (hk : k < tails.length) :
    (tails.map (x :: ·)).getD k [] = x :: tails.getD k [] := by
  rw [List.getD_eq_getElem?_getD, List.getD_eq_getElem?_getD, List.getElem?_map,
    List.getElem?_eq_getElem hk]
  rfl

theorem cartAux_getD {α : Type} (l : List α) (tails : List (List α)) (k : ℕ)
    (hk : k < l.length * tails.length) (x₀ : α) :
    (cartAux l tails).getD k []
      = l.getD (k / tails.length) x₀ :: tails.getD (k % tails.length) [] := by
  induction l generalizing k with
  | nil => simp at hk
  | cons x xs ih =>
      have hp : 0 < tails.length := by
        rcases Nat.eq_zero_or_pos tails.length with h | h
        · rw [h, Nat.mul_zero] at hk; omega
        · exact h
      rcases Nat.lt_or_ge k tails.length with hlt | hge
      · rw [cartAux, List.getD_eq_getElem?_getD, List.getElem?_append_left
          (by simpa using hlt), ← List.getD_eq_getElem?_getD,
          getD_map_cons x tails k hlt, Nat.div_eq_of_lt hlt, Nat.mod_eq_of_lt hlt,
          List.getD_cons_zero]
      · have hk' : k - tails.length < xs.length * tails.length := by
          rw [List.length_cons, Nat.succ_mul] at hk
          omega
        rw [cartAux, List.getD_eq_getElem?_getD, List.getElem?_append_right
          (by simpa using hge), ← List.getD_eq_getElem?_getD, List.length_map]
        rw [ih (k - tails.length) hk']
        have hrep : k = (k - tails.length) + tails.length := by omega
        rw [hrep, Nat.add_div_right _ hp, Nat.add_mod_right, List.getD_cons_succ]
        simp [Nat.add_sub_cancel]

/-- The combination of `cartProd L` at the flat position obtained by row-major
flattening of an in-range multi-index `t` picks the `t i`-th entry of the
`i`-th factor. -/
theorem cartProd_getD {α : Type} (x₀ : α) (L : List (List α)) (t : List ℕ)
    (h : List.Forall₂ (fun (tk : ℕ) (l : List α) => tk < l.length) t L) :
    (cartProd L).getD (flattenIndex t (L.map List.length)) []
      = List.zipWith (fun (l : List α) (i : ℕ) => l.getD i x₀) L t := by
  induction h with
  | nil => simp [cartProd, flattenIndex]
  | @cons tk l ts ls htk hrest ih =>
      have hlt : List.Forall₂ (· < ·) ts (ls.map List.length) :=
        List.forall₂_map_right_iff.mpr hrest
      have hflt : flattenIndex ts (ls.map List.length) < (ls.map List.length).prod :=
        flattenIndex_lt _ _ hlt
      have hk : tk * (ls.map List.length).prod + flattenIndex ts (ls.map List.length)
          < l.length * (cartProd ls).length := by
        rw [cartProd_length]
        have : (tk + 1) * (ls.map List.length).prod ≤ l.length * (ls.map List.length).prod :=
          Nat.mul_le_mul_right _ htk
        calc tk * (ls.map List.length).prod + flattenIndex ts (ls.map List.length)
            < tk * (ls.map List.length).prod + (ls.map List.length).prod := by omega
          _ = (tk + 1) * (ls.map List.length).prod := by ring
          _ ≤ l.length * (ls.map List.length).prod := this
      simp only [List.map_cons, flattenIndex, cartProd, List.zipWith_cons_cons]
      rw [cartAux_getD l (cartProd ls) _ hk x₀]
      have hlen : (cartProd ls).length = (ls.map List.length).prod := cartProd_length ls
      have hdiv : (tk * (ls.map List.length).prod + flattenIndex ts (ls.map List.length))
          / (cartProd ls).length = tk := by
        rw [hlen, Nat.add_comm, Nat.add_mul_div_right _ _ (by omega),
          Nat.div_eq_of_lt hflt, Nat.zero_add]
      have hmod : (tk * (ls.map List.length).prod + flattenIndex ts (ls.map List.length))
          % (cartProd ls).length = flattenIndex ts (ls.map List.length) := by
        rw [hlen, Nat.add_comm, Nat.add_mul_mod_self_right, Nat.mod_eq_of_lt hflt]
      rw [hdiv, hmod, ih]

/-! ### `sweep_parameter_space` (data_analysis_tools.py, lines 409-486)

The loop walks `itertools.product` of the six noise-parameter lists keeping a
flat counter `index`.  A combination with `T2 > 2*T1` only advances the
counter.  Otherwise one of `fid_single_qubit`, `perfect_stab_circuit`,
`fidelity_from_scratch` is run — modelled by the oracle `sim`, which absorbs
`n_cycles`, `n_shots`, the flag-dependent choice among the three functions and
the `|+>` normalisation, and returns `(fid, list(time.values()))` — and
`scipy.optimize.curve_fit(monoExp, time_list, fid[1:], p0)` — modelled by the
oracle `fit`, returning `(pars, cov)`.  The fitted `T = pars[0]` lands in
`error_array` and `cov[0][0]` in `var_array` at
`_get_array_indexes(index, sweep_lengths)`.  The `sims` field records each
simulation performed, as the pair (flat counter, parameter combination). -/

/-- `Modelled from the spec:` the `GateTimes` configuration class lives in
`simulator_program/custom_noise_models.py`, which is not part of the sources;
per the spec it holds a single-qubit time, a two-qubit time and named custom
gate times.  Only its identity as a value matters for the claims. -/
structure GateTimes where
  singleQubitDefault : ℝ
  twoQubitDefault : ℝ
  customGateTimes : List (String × ℝ)

/-- `GateTimes(params[2], params[3], {u1: 0, z: 0, measure: params[4],
feedback: params[5]})` as built at the head of each loop iteration. -/
noncomputable def sweepGateTimes (c : List ℝ) : GateTimes :=
  ⟨c.getD 2 0, c.getD 3 0,
    [("u1", 0), ("z", 0), ("measure", c.getD 4 0), ("feedback", c.getD 5 0)]⟩

/-- The skip guard `params[1] > 2*params[0]` (`T2 > 2*T1`). -/
def skipCombo (c : List ℝ) : Prop := c.getD 1 0 > 2 * c.getD 0 0

noncomputable instance : ∀ c, Decidable (skipCombo c) :=
  fun c => inferInstanceAs (Decidable (_ < _))

/-- Oracle for the simulation call of one iteration: gate times, `T1`, `T2`
to `(fid, list(time.values()))`. -/
def SimFun : Type := GateTimes → ℝ → ℝ → List ℝ × List ℝ

/-- Oracle for `scipy.optimize.curve_fit(monoExp, ...)`: time list, fidelity
list and initial guess `p0` to `(pars, cov)`. -/
def FitFun : Type := List ℝ → List ℝ → ℝ × ℝ × ℝ → (ℝ × ℝ × ℝ) × Matrix (Fin 3) (Fin 3) ℝ

structure SweepState where
  index : ℕ
  errorArray : List ℕ → ℝ
  varArray : List ℕ → ℝ
  sims : List (ℕ × List ℝ)

/-- The fit of one non-skipped iteration: `time_list = list(time.values())[1:-1]`,
data `fid[1:]`, initial guess `p0 = (params[0], 0, 0.9)`. -/
noncomputable def sweepFit (sim : SimFun) (fit : FitFun) (c : List ℝ) :
    (ℝ × ℝ × ℝ) × Matrix (Fin 3) (Fin 3) ℝ :=
  let fidTime := sim (sweepGateTimes c) (c.getD 0 0) (c.getD 1 0)
  fit ((fidTime.2.drop 1).dropLast) (fidTime.1.drop 1) (c.getD 0 0, 0, 0.9)

/-- One iteration of the `for params in itertools.product(...)` loop. -/
noncomputable def sweepStep (sim : SimFun) (fit : FitFun) (sweepLengths : List ℕ)
    (st : SweepState) (params : List ℝ) : SweepState :=
  if skipCombo params then
    { st with index := st.index + 1 }
  else
    let res := sweepFit sim fit params
    let idxs := (getArrayIndexes st.index sweepLengths).getD []
    { index := st.index + 1
      errorArray := Function.update st.errorArray idxs res.1.1
      varArray := Function.update st.varArray idxs (res.2 0 0)
      sims := st.sims ++ [(st.index, params)] }

/-- Embedding of `sweep_parameter_space` over six parameter lists: returns
`error_array`, `var_array` (tuple-indexed maps initialised to
`np.zeros(sweep_lengths)`) and the simulation log. -/
noncomputable def sweepParameterSpace (sim : SimFun) (fit : FitFun)
    (tOne tTwo sqgTime tqgTime measureTime feedbackTime : List ℝ) :
    (List ℕ → ℝ) × (List ℕ → ℝ) × List (ℕ × List ℝ) :=
  let noiseParameters := [tOne, tTwo, sqgTime, tqgTime, measureTime, feedbackTime]
  let sweepLengths := noiseParameters.map List.length
  let final := (cartProd noiseParameters).foldl
    (sweepStep sim fit sweepLengths) ⟨0, fun _ => 0, fun _ => 0, []⟩
  (final.errorArray, final.varArray, final.sims)

/-- The flat-position/parameter pairs of the simulations the loop performs
when started at counter value `i0`. -/
noncomputable def simsOf (i0 : ℕ) : List (List ℝ) → List (ℕ × List ℝ)
  | [] => []
  | c :: rest =>
      if skipCombo c then simsOf (i0 + 1) rest
      else (i0, c) :: simsOf (i0 + 1) rest

theorem sweep_foldl_index (sim : SimFun) (fit : FitFun) (Ls : List ℕ)
    (combos : List (List ℝ)) (st : SweepState) :
    (combos.foldl (sweepStep sim fit Ls) st).index = st.index + combos.length := by
  induction combos generalizing st with
  | nil => simp
  | cons c rest ih =>
      rw [List.foldl_cons, ih]
      by_cases h : skipCombo c <;> simp [sweepStep, h] <;> omega

theorem sweep_foldl_sims (sim : SimFun) (fit : FitFun) (Ls : List ℕ)
    (combos : List (List ℝ)) (st : SweepState) :
    (combos.foldl (sweepStep sim fit Ls) st).sims = st.sims ++ simsOf st.index combos := by
  induction combos generalizing st with
  | nil => simp [simsOf]
  | cons c rest ih =>
      rw [List.foldl_cons, ih]
      by_cases h : skipCombo c
      · simp [sweepStep, h, simsOf]
      · simp [sweepStep, h, simsOf]

theorem sweep_foldl_noWrite (sim : SimFun) (fit : FitFun) (Ls : List ℕ)
    (combos : List (List ℝ)) (st : SweepState) (t : List ℕ)
    (h : ∀ j, j < combos.length → ¬ skipCombo (combos.getD j []) →
      (getArrayIndexes (st.index + j) Ls).getD [] ≠ t) :
    (combos.foldl (sweepStep sim fit Ls) st).errorArray t = st.errorArray t ∧
    (combos.foldl (sweepStep sim fit Ls) st).varArray t = st.varArray t := by
  induction combos generalizing st with
  | nil => simp
  | cons c rest ih =>
      rw [List.foldl_cons]
      by_cases hc : skipCombo c
      · have := ih { st with index := st.index + 1 } (fun j hj hns => by
          have := h (j + 1) (by simpa using Nat.succ_lt_succ hj)
            (by simpa using hns)
          simpa [Nat.add_assoc, Nat.add_comm 1 j] using this)
        simpa [sweepStep, hc] using this
      · have h0 : (getArrayIndexes st.index Ls).getD [] ≠ t := by
          have := h 0 (by simp) (by simpa using hc)
          simpa using this
        have hrest := ih (sweepStep sim fit Ls st c) (fun j hj hns => by
          have := h (j + 1) (by simpa using Nat.succ_lt_succ hj)
            (by simpa using hns)
          have hidx : (sweepStep sim fit Ls st c).index = st.index + 1 := by
            simp [sweepStep, hc]
          rw [hidx]
          simpa [Nat.add_assoc, Nat.add_comm 1 j] using this)
        refine ⟨?_, ?_⟩
        · rw [hrest.1]
          simp [sweepStep, hc, Function.update_noteq (Ne.symm h0)]
        · rw [hrest.2]
          simp [sweepStep, hc, Function.update_noteq (Ne.symm h0)]

theorem sweep_foldl_write (sim : SimFun) (fit : FitFun) (Ls : List ℕ)
    (combos : List (List ℝ)) (st : SweepState) (t : List ℕ) (k : ℕ)
    (hk : k < combos.length)
    (hns : ¬ skipCombo (combos.getD k []))
    (hidx : (getArrayIndexes (st.index + k) Ls).getD [] = t)
    (hlater : ∀ j, k < j → j < combos.length → ¬ skipCombo (combos.getD j []) →
      (getArrayIndexes (st.index + j) Ls).getD [] ≠ t) :
    (combos.foldl (sweepStep sim fit Ls) st).errorArray t
      = (sweepFit sim fit (combos.getD k [])).1.1 ∧
    (combos.foldl (sweepStep sim fit Ls) st).varArray t
      = (sweepFit sim fit (combos.getD k [])).2 0 0 := by
  induction combos generalizing st k with
  | nil => simp at hk
  | cons c rest ih =>
      rw [List.foldl_cons]
      cases k with
      | zero =>
          simp only [List.getD_cons_zero] at hns ⊢
          rw [Nat.add_zero] at hidx
          have hnw := sweep_foldl_noWrite sim fit Ls rest (sweepStep sim fit Ls st c) t
            (fun j hj hnsj => by
              have := hlater (j + 1) (Nat.succ_pos j) (by simpa using Nat.succ_lt_succ hj)
                (by simpa using hnsj)
              have hidx1 : (sweepStep sim fit Ls st c).index = st.index + 1 := by
                simp [sweepStep, hns]
              rw [hidx1]
              simpa [Nat.add_assoc, Nat.add_comm 1 j] using this)
          refine ⟨?_, ?_⟩
          · rw [hnw.1]
            simp [sweepStep, hns, hidx, Function.update_same]
          · rw [hnw.2]
            simp [sweepStep, hns, hidx, Function.update_same]
      | succ k =>
          have hstep : (sweepStep sim fit Ls st c).index = st.index + 1 := by
            by_cases hc : skipCombo c <;> simp [sweepStep, hc]
          have := ih (sweepStep sim fit Ls st c) k
            (by simpa using Nat.lt_of_succ_lt_succ hk)
            (by simpa using hns)
            (by rw [hstep]; rw [show st.index + 1 + k = st.index + (k + 1) by omega]
                simpa using hidx)
            (fun j hj hjlen hnsj => by
              have := hlater (j + 1) (Nat.succ_lt_succ hj)
                (by simpa using Nat.succ_lt_succ hjlen) (by simpa using hnsj)
              rw [hstep, show st.index + 1 + j = st.index + (j + 1) by omega]
              simpa using this)
          simpa using this

theorem simsOf_mem (combos : List (List ℝ)) (i0 : ℕ) (e : ℕ × List ℝ)
    (he : e ∈ simsOf i0 combos) :
    ∃ j, j < combos.length ∧ e = (i0 + j, combos.getD j []) ∧
      ¬ skipCombo (combos.getD j []) := by
  induction combos generalizing i0 with
  | nil => simp [simsOf] at he
  | cons c rest ih =>
      by_cases hc : skipCombo c
      · rw [simsOf, if_pos hc] at he
        obtain ⟨j, hj, hej, hns⟩ := ih (i0 + 1) he
        exact ⟨j + 1, by simpa using Nat.succ_lt_succ hj,
          by simpa [Nat.add_assoc, Nat.add_comm 1 j] using hej, by simpa using hns⟩
      · rw [simsOf, if_neg hc] at he
        rcases List.mem_cons.mp he with h | h
        · exact ⟨0, by simp, by simpa using h, by simpa using hc⟩
        · obtain ⟨j, hj, hej, hns⟩ := ih (i0 + 1) h
          exact ⟨j + 1, by simpa using Nat.succ_lt_succ hj,
            by simpa [Nat.add_assoc, Nat.add_comm 1 j] using hej, by simpa using hns⟩

theorem simsOf_mem_self (combos : List (List ℝ)) (i0 k : ℕ) (hk : k < combos.length)
    (hns : ¬ skipCombo (combos.getD k [])) :
    (i0 + k, combos.getD k []) ∈ simsOf i0 combos := by
  induction combos generalizing i0 k with
  | nil => simp at hk
  | cons c rest ih =>
      cases k with
      | zero =>
          simp only [List.getD_cons_zero] at hns ⊢
          rw [simsOf, if_neg hns]
          exact List.mem_cons_self _ _
      | succ k =>
          have hmem := ih (i0 + 1) k (by simpa using Nat.lt_of_succ_lt_succ hk)
            (by simpa using hns)
          have hrw : (i0 + 1 + k, rest.getD k []) = (i0 + (k + 1), (c :: rest).getD (k + 1) []) := by
            simp [Nat.add_assoc, Nat.add_comm 1 k]
          by_cases hc : skipCombo c
          · rw [simsOf, if_pos hc]
            rw [← hrw]
            exact hmem
          · rw [simsOf, if_neg hc]
            exact List.mem_cons_of_mem _ (hrw ▸ hmem)

theorem simsOf_countP (combos : List (List ℝ)) (i0 k : ℕ) (hk : k < combos.length) :
    (simsOf i0 combos).countP (fun e => e.1 == i0 + k)
      = if skipCombo (combos.getD k []) then 0 else 1 := by
  induction combos generalizing i0 k with
  | nil => simp at hk
  | cons c rest ih =>
      have htail0 : ∀ e ∈ simsOf (i0 + 1) rest, ¬ ((fun e => e.1 == i0 + 0) e = true) := by
        intro e he
        obtain ⟨j, _, hej, _⟩ := simsOf_mem rest (i0 + 1) e he
        simp only [hej, beq_iff_eq]
        omega
      cases k with
      | zero =>
          simp only [List.getD_cons_zero]
          by_cases hc : skipCombo c
          · rw [simsOf, if_pos hc, if_pos hc]
            exact List.countP_eq_zero.mpr htail0
          · rw [simsOf, if_neg hc, if_neg hc, List.countP_cons]
            rw [List.countP_eq_zero.mpr htail0]
            simp
      | succ k =>
          have hk' : k < rest.length := by simpa using Nat.lt_of_succ_lt_succ hk
          have hshift : (fun (e : ℕ × List ℝ) => e.1 == i0 + (k + 1))
              = (fun (e : ℕ × List ℝ) => e.1 == (i0 + 1) + k) := by
            funext e
            have : i0 + (k + 1) = (i0 + 1) + k := by omega
            rw [this]
          rw [hshift]
          simp only [List.getD_cons_succ]
          by_cases hc : skipCombo c
          · rw [simsOf, if_pos hc]
            exact ih (i0 + 1) k hk'
          · rw [simsOf, if_neg hc, List.countP_cons, ih (i0 + 1) k hk']
            have hne : i0 ≠ i0 + 1 + k := by omega
            simp [hne]

theorem rowDigits_inj (l : ℕ) (rest : List ℕ) (j k : ℕ)
    (h : rowDigits j (l :: rest) = rowDigits k (l :: rest)) : j = k := by
  have h2 := congrArg (fun ds => flattenIndex ds (l :: rest)) h
  simpa [flattenIndex_rowDigits] using h2

theorem rowDigits_flattenIndex_of_ne (ts ls : List ℕ)
    (h : List.Forall₂ (· < ·) ts ls) (hne : ts ≠ []) :
    rowDigits (flattenIndex ts ls) ls = ts := by
  cases h with
  | nil => exact absurd rfl hne
  | @cons t l ts ls ht hrest =>
      exact rowDigits_flattenIndex t l ts ls (List.Forall₂.cons ht hrest)

/-- The parameter combination selected by the grid multi-index `t`:
the `t i`-th entry of the `i`-th noise-parameter list. -/
def comboAt (tOne tTwo sqgTime tqgTime measureTime feedbackTime : List ℝ)
    (t : List ℕ) : List ℝ :=
  List.zipWith (fun (l : List ℝ) (i : ℕ) => l.getD i 0)
    [tOne, tTwo, sqgTime, tqgTime, measureTime, feedbackTime] t

theorem rowDigits_inj_of_ne (ls : List ℕ) (hne : ls ≠ []) (j k : ℕ)
    (h : rowDigits j ls = rowDigits k ls) : j = k := by
  cases ls with
  | nil => exact absurd rfl hne
  | cons l rest => exact rowDigits_inj l rest j k h

theorem sweep_core_facts (Lists : List (List ℝ)) (t : List ℕ)
    (ht : List.Forall₂ (fun (tk : ℕ) (l : List ℝ) => tk < l.length) t Lists)
    (hne : t ≠ []) :
    flattenIndex t (Lists.map List.length) < (cartProd Lists).length ∧
    rowDigits (flattenIndex t (Lists.map List.length)) (Lists.map List.length) = t ∧
    (cartProd Lists).getD (flattenIndex t (Lists.map List.length)) []
      = List.zipWith (fun (l : List ℝ) (i : ℕ) => l.getD i 0) Lists t ∧
    Lists.map List.length ≠ [] := by
  have ht' : List.Forall₂ (· < ·) t (Lists.map List.length) :=
    List.forall₂_map_right_iff.mpr ht
  have hLsne : Lists.map List.length ≠ [] := by
    intro h
    rw [List.map_eq_nil_iff] at h
    subst h
    rw [List.forall₂_nil_right_iff] at ht
    exact hne ht
  refine ⟨?_, ?_, ?_, hLsne⟩
  · rw [cartProd_length]
    exact flattenIndex_lt t _ ht'
  · exact rowDigits_flattenIndex_of_ne t _ ht' hne
  · exact cartProd_getD 0 Lists t ht

theorem sweep_core_lands (sim : SimFun) (fit : FitFun) (Lists : List (List ℝ))
    (t : List ℕ)
    (ht : List.Forall₂ (fun (tk : ℕ) (l : List ℝ) => tk < l.length) t Lists)
    (hne : t ≠ [])
    (hns : ¬ skipCombo (List.zipWith (fun (l : List ℝ) (i : ℕ) => l.getD i 0) Lists t)) :
    ((cartProd Lists).foldl (sweepStep sim fit (Lists.map List.length))
        ⟨0, fun _ => 0, fun _ => 0, []⟩).errorArray t
      = (sweepFit sim fit
          (List.zipWith (fun (l : List ℝ) (i : ℕ) => l.getD i 0) Lists t)).1.1 ∧
    ((cartProd Lists).foldl (sweepStep sim fit (Lists.map List.length))
        ⟨0, fun _ => 0, fun _ => 0, []⟩).varArray t
      = (sweepFit sim fit
          (List.zipWith (fun (l : List ℝ) (i : ℕ) => l.getD i 0) Lists t)).2 0 0 := by
  obtain ⟨hkP, hrow, hcombo, hLsne⟩ := sweep_core_facts Lists t ht hne
  have hidxk : (getArrayIndexes (flattenIndex t (Lists.map List.length))
      (Lists.map List.length)).getD [] = t := by
    rw [getArrayIndexes_eq _ _ hLsne, Option.getD_some, hrow]
  have hlater : ∀ j, flattenIndex t (Lists.map List.length) < j →
      j < (cartProd Lists).length → ¬ skipCombo ((cartProd Lists).getD j []) →
      (getArrayIndexes ((0 : ℕ) + j) (Lists.map List.length)).getD [] ≠ t := by
    intro j hkj _ _ heq
    rw [Nat.zero_add, getArrayIndexes_eq _ _ hLsne, Option.getD_some] at heq
    have hjk : j = flattenIndex t (Lists.map List.length) :=
      rowDigits_inj_of_ne _ hLsne _ _ (heq.trans hrow.symm)
    omega
  have hwrite := sweep_foldl_write sim fit (Lists.map List.length) (cartProd Lists)
    ⟨0, fun _ => 0, fun _ => 0, []⟩ t (flattenIndex t (Lists.map List.length))
    hkP (by rwa [hcombo]) (by simpa using hidxk) hlater
  rw [hcombo] at hwrite
  exact hwrite

theorem sweep_core_skip (sim : SimFun) (fit : FitFun) (Lists : List (List ℝ))
    (t : List ℕ)
    (ht : List.Forall₂ (fun (tk : ℕ) (l : List ℝ) => tk < l.length) t Lists)
    (hne : t ≠ [])
    (hskip : skipCombo (List.zipWith (fun (l : List ℝ) (i : ℕ) => l.getD i 0) Lists t)) :
    (∀ e ∈ ((cartProd Lists).foldl (sweepStep sim fit (Lists.map List.length))
        ⟨0, fun _ => 0, fun _ => 0, []⟩).sims,
      e.1 ≠ flattenIndex t (Lists.map List.length)) ∧
    ((cartProd Lists).foldl (sweepStep sim fit (Lists.map List.length))
        ⟨0, fun _ => 0, fun _ => 0, []⟩).errorArray t = 0 ∧
    ((cartProd Lists).foldl (sweepStep sim fit (Lists.map List.length))
        ⟨0, fun _ => 0, fun _ => 0, []⟩).varArray t = 0 := by
  obtain ⟨hkP, hrow, hcombo, hLsne⟩ := sweep_core_facts Lists t ht hne
  refine ⟨?_, ?_⟩
  · intro e he h1
    rw [sweep_foldl_sims] at he
    simp only [List.nil_append] at he
    obtain ⟨j, hj, hej, hnsj⟩ := simsOf_mem _ _ _ he
    rw [hej] at h1
    simp only [Nat.zero_add] at h1
    rw [h1] at hnsj
    rw [hcombo] at hnsj
    exact hnsj hskip
  · have hnw := sweep_foldl_noWrite sim fit (Lists.map List.length) (cartProd Lists)
      ⟨0, fun _ => 0, fun _ => 0, []⟩ t (fun j hj hnsj heq => by
        rw [Nat.zero_add, getArrayIndexes_eq _ _ hLsne, Option.getD_some] at heq
        have hjk : j = flattenIndex t (Lists.map List.length) :=
          rowDigits_inj_of_ne _ hLsne _ _ (heq.trans hrow.symm)
        rw [hjk, hcombo] at hnsj
        exact hnsj hskip)
    exact hnw

theorem sweep_core_once (sim : SimFun) (fit : FitFun) (Lists : List (List ℝ))
    (t : List ℕ)
    (ht : List.Forall₂ (fun (tk : ℕ) (l : List ℝ) => tk < l.length) t Lists)
    (hne : t ≠ [])
    (hns : ¬ skipCombo (List.zipWith (fun (l : List ℝ) (i : ℕ) => l.getD i 0) Lists t)) :
    (((cartProd Lists).foldl (sweepStep sim fit (Lists.map List.length))
        ⟨0, fun _ => 0, fun _ => 0, []⟩).sims).countP
      (fun e => e.1 == flattenIndex t (Lists.map List.length)) = 1 ∧
    (flattenIndex t (Lists.map List.length),
      List.zipWith (fun (l : List ℝ) (i : ℕ) => l.getD i 0) Lists t) ∈
      ((cartProd Lists).foldl (sweepStep sim fit (Lists.map List.length))
        ⟨0, fun _ => 0, fun _ => 0, []⟩).sims := by
  obtain ⟨hkP, hrow, hcombo, hLsne⟩ := sweep_core_facts Lists t ht hne
  rw [sweep_foldl_sims]
  simp only [List.nil_append]
  constructor
  · have hcnt := simsOf_countP (cartProd Lists) 0 (flattenIndex t (Lists.map List.length)) hkP
    rw [hcombo, if_neg hns] at hcnt
    have hfun : (fun (e : ℕ × List ℝ) =>
        e.1 == 0 + flattenIndex t (Lists.map List.length))
        = (fun (e : ℕ × List ℝ) => e.1 == flattenIndex t (Lists.map List.length)) := by
      funext e
      rw [Nat.zero_add]
    rw [hfun] at hcnt
    exact hcnt
  · have hmem := simsOf_mem_self (cartProd Lists) 0 (flattenIndex t (Lists.map List.length))
      hkP (by rwa [hcombo])
    rw [Nat.zero_add, hcombo] at hmem
    exact hmem

/-- C2: for every parameter combination the sweep processes (the grid
multi-index `t` selects in-range entries of each of the six lists and the
combination is not skipped), the returned `error_array` holds at `t` the
fitted decay constant `T` — the first parameter of the `monoExp` fit of the
fidelity list `fid[1:]` against the snapshot time list
`list(time.values())[1:-1]` — and `var_array` holds the `(0,0)` entry of the
covariance matrix of that fit. -/
theorem sweep_stores_fit_and_cov (sim : SimFun) (fit : FitFun)
    (L1 L2 L3 L4 L5 L6 : List ℝ) (t : List ℕ)
    (ht : List.Forall₂ (fun (tk : ℕ) (l : List ℝ) => tk < l.length) t
      [L1, L2, L3, L4, L5, L6])
    (hns : ¬ skipCombo (comboAt L1 L2 L3 L4 L5 L6 t)) :
    (sweepParameterSpace sim fit L1 L2 L3 L4 L5 L6).1 t
      = (sweepFit sim fit (comboAt L1 L2 L3 L4 L5 L6 t)).1.1 ∧
    (sweepParameterSpace sim fit L1 L2 L3 L4 L5 L6).2.1 t
      = (sweepFit sim fit (comboAt L1 L2 L3 L4 L5 L6 t)).2 0 0 := by
  have hne : t ≠ [] := by
    have hlen := ht.length_eq
    intro h
    rw [h] at hlen
    simp at hlen
  exact sweep_core_lands sim fit [L1, L2, L3, L4, L5, L6] t ht hne hns

/-- C2 (witness): singleton lists, multi-index `(0,0,0,0,0,0)`; the
combination `(1,1,1,1,1,1)` is not skipped. -/
theorem sweep_stores_fit_and_cov_witness :
    (List.Forall₂ (fun (tk : ℕ) (l : List ℝ) => tk < l.length)
      [0, 0, 0, 0, 0, 0] [[1], [1], [1], [1], [1], [1]] ∧
     ¬ skipCombo (comboAt [1] [1] [1] [1] [1] [1] [0, 0, 0, 0, 0, 0])) ∧
    ((sweepParameterSpace (fun _ _ _ => ([], [])) (fun _ _ _ => ((0, 0, 0), 0))
        [1] [1] [1] [1] [1] [1]).1 [0, 0, 0, 0, 0, 0]
      = (sweepFit (fun _ _ _ => ([], [])) (fun _ _ _ => ((0, 0, 0), 0))
          (comboAt [1] [1] [1] [1] [1] [1] [0, 0, 0, 0, 0, 0])).1.1 ∧
     (sweepParameterSpace (fun _ _ _ => ([], [])) (fun _ _ _ => ((0, 0, 0), 0))
        [1] [1] [1] [1] [1] [1]).2.1 [0, 0, 0, 0, 0, 0]
      = (sweepFit (fun _ _ _ => ([], [])) (fun _ _ _ => ((0, 0, 0), 0))
          (comboAt [1] [1] [1] [1] [1] [1] [0, 0, 0, 0, 0, 0])).2 0 0) := by
  have h1 : List.Forall₂ (fun (tk : ℕ) (l : List ℝ) => tk < l.length)
      [0, 0, 0, 0, 0, 0] [[1], [1], [1], [1], [1], [1]] := by
    simp [List.forall₂_cons]
  have h2 : ¬ skipCombo (comboAt [1] [1] [1] [1] [1] [1] [0, 0, 0, 0, 0, 0]) := by
    norm_num [skipCombo, comboAt]
  exact ⟨⟨h1, h2⟩, sweep_stores_fit_and_cov _ _ [1] [1] [1] [1] [1] [1]
    [0, 0, 0, 0, 0, 0] h1 h2⟩

/-- C9: a combination with `T2 > 2*T1` is never simulated (no entry of the
simulation log carries its flat index), its `error_array` and `var_array`
entries stay exactly `0`, and — because the flat counter still advances —
every other, non-skipped combination still lands at its own multi-index with
its own fitted value. -/
theorem sweep_skips_T2_combinations (sim : SimFun) (fit : FitFun)
    (L1 L2 L3 L4 L5 L6 : List ℝ) (t : List ℕ)
    (ht : List.Forall₂ (fun (tk : ℕ) (l : List ℝ) => tk < l.length) t
      [L1, L2, L3, L4, L5, L6])
    (hskip : skipCombo (comboAt L1 L2 L3 L4 L5 L6 t)) :
    (∀ e ∈ (sweepParameterSpace sim fit L1 L2 L3 L4 L5 L6).2.2,
      e.1 ≠ flattenIndex t ([L1, L2, L3, L4, L5, L6].map List.length)) ∧
    (sweepParameterSpace sim fit L1 L2 L3 L4 L5 L6).1 t = 0 ∧
    (sweepParameterSpace sim fit L1 L2 L3 L4 L5 L6).2.1 t = 0 ∧
    (∀ u, List.Forall₂ (fun (tk : ℕ) (l : List ℝ) => tk < l.length) u
        [L1, L2, L3, L4, L5, L6] →
      ¬ skipCombo (comboAt L1 L2 L3 L4 L5 L6 u) →
      (sweepParameterSpace sim fit L1 L2 L3 L4 L5 L6).1 u
        = (sweepFit sim fit (comboAt L1 L2 L3 L4 L5 L6 u)).1.1) := by
  have hne : t ≠ [] := by
    have hlen := ht.length_eq
    intro h
    rw [h] at hlen
    simp at hlen
  have hcore := sweep_core_skip sim fit [L1, L2, L3, L4, L5, L6] t ht hne hskip
  refine ⟨hcore.1, hcore.2.1, hcore.2.2, ?_⟩
  intro u hu hnsu
  have hneu : u ≠ [] := by
    have hlen := hu.length_eq
    intro h
    rw [h] at hlen
    simp at hlen
  exact (sweep_core_lands sim fit [L1, L2, L3, L4, L5, L6] u hu hneu hnsu).1

/-- C9 (witness): with `T1 = [1]`, `T2 = [3]` the single combination has
`T2 > 2*T1` and is skipped. -/
theorem sweep_skips_T2_combinations_witness :
    (List.Forall₂ (fun (tk : ℕ) (l : List ℝ) => tk < l.length)
      [0, 0, 0, 0, 0, 0] [[1], [3], [1], [1], [1], [1]] ∧
     skipCombo (comboAt [1] [3] [1] [1] [1] [1] [0, 0, 0, 0, 0, 0])) ∧
    ((∀ e ∈ (sweepParameterSpace (fun _ _ _ => ([], []))
        (fun _ _ _ => ((0, 0, 0), 0)) [1] [3] [1] [1] [1] [1]).2.2,
      e.1 ≠ flattenIndex [0, 0, 0, 0, 0, 0]
        ([[1], [3], [1], [1], [1], [1]].map List.length)) ∧
     (sweepParameterSpace (fun _ _ _ => ([], [])) (fun _ _ _ => ((0, 0, 0), 0))
        [1] [3] [1] [1] [1] [1]).1 [0, 0, 0, 0, 0, 0] = 0 ∧
     (sweepParameterSpace (fun _ _ _ => ([], [])) (fun _ _ _ => ((0, 0, 0), 0))
        [1] [3] [1] [1] [1] [1]).2.1 [0, 0, 0, 0, 0, 0] = 0 ∧
     (∀ u, List.Forall₂ (fun (tk : ℕ) (l : List ℝ) => tk < l.length) u
         [[1], [3], [1], [1], [1], [1]] →
       ¬ skipCombo (comboAt [1] [3] [1] [1] [1] [1] u) →
       (sweepParameterSpace (fun _ _ _ => ([], [])) (fun _ _ _ => ((0, 0, 0), 0))
          [1] [3] [1] [1] [1] [1]).1 u
         = (sweepFit (fun _ _ _ => ([], [])) (fun _ _ _ => ((0, 0, 0), 0))
             (comboAt [1] [3] [1] [1] [1] [1] u)).1.1)) := by
  have h1 : List.Forall₂ (fun (tk : ℕ) (l : List ℝ) => tk < l.length)
      [0, 0, 0, 0, 0, 0] [[1], [3], [1], [1], [1], [1]] := by
    simp [List.forall₂_cons]
  have h2 : skipCombo (comboAt [1] [3] [1] [1] [1] [1] [0, 0, 0, 0, 0, 0]) := by
    norm_num [skipCombo, comboAt]
  exact ⟨⟨h1, h2⟩, sweep_skips_T2_combinations _ _ [1] [3] [1] [1] [1] [1]
    [0, 0, 0, 0, 0, 0] h1 h2⟩

/-- C1 (counterexample): with `T1 = [1]` and `T2 = [3]` the Cartesian product
contains the combination `(1, 3, 1, 1, 1, 1)`, yet the sweep performs NO
simulation at all (empty simulation log): the claim that every combination of
the product is simulated and fitted fails on combinations with `T2 > 2*T1`. -/
theorem sweep_simulates_every_combination_counterexample :
    ([1, 3, 1, 1, 1, 1] : List ℝ) ∈ cartProd [[1], [3], [1], [1], [1], [1]] ∧
    (sweepParameterSpace (fun _ _ _ => ([], [])) (fun _ _ _ => ((0, 0, 0), 0))
      [1] [3] [1] [1] [1] [1]).2.2 = [] := by
  constructor
  · simp [cartProd, cartAux]
  · have hskip : skipCombo ([1, 3, 1, 1, 1, 1] : List ℝ) := by
      norm_num [skipCombo]
    show (List.foldl (sweepStep _ _ _) ⟨0, fun _ => 0, fun _ => 0, []⟩
      (cartProd [[1], [3], [1], [1], [1], [1]])).sims = []
    rw [show cartProd [[(1 : ℝ)], [3], [1], [1], [1], [1]]
        = [[1, 3, 1, 1, 1, 1]] by simp [cartProd, cartAux]]
    rw [List.foldl_cons, List.foldl_nil, sweepStep, if_pos hskip]

/-- C1 (amended): for every combination of the Cartesian product whose
`T2 ≤ 2*T1` (the sweep skips the others), `sweep_parameter_space` performs
exactly one simulation — the simulation log holds exactly one entry with that
combination's flat index, namely the combination itself — and fits the
exponential decay to the resulting fidelities, storing the fitted `T`. -/
theorem sweep_simulates_once (sim : SimFun) (fit : FitFun)
    (L1 L2 L3 L4 L5 L6 : List ℝ) (t : List ℕ)
    (ht : List.Forall₂ (fun (tk : ℕ) (l : List ℝ) => tk < l.length) t
      [L1, L2, L3, L4, L5, L6])
    (hns : ¬ skipCombo (comboAt L1 L2 L3 L4 L5 L6 t)) :
    ((sweepParameterSpace sim fit L1 L2 L3 L4 L5 L6).2.2).countP
      (fun e => e.1 == flattenIndex t ([L1, L2, L3, L4, L5, L6].map List.length)) = 1 ∧
    (flattenIndex t ([L1, L2, L3, L4, L5, L6].map List.length),
      comboAt L1 L2 L3 L4 L5 L6 t) ∈ (sweepParameterSpace sim fit L1 L2 L3 L4 L5 L6).2.2 ∧
    (sweepParameterSpace sim fit L1 L2 L3 L4 L5 L6).1 t
      = (sweepFit sim fit (comboAt L1 L2 L3 L4 L5 L6 t)).1.1 := by
  have hne : t ≠ [] := by
    have hlen := ht.length_eq
    intro h
    rw [h] at hlen
    simp at hlen
  have honce := sweep_core_once sim fit [L1, L2, L3, L4, L5, L6] t ht hne hns
  have hland := sweep_core_lands sim fit [L1, L2, L3, L4, L5, L6] t ht hne hns
  exact ⟨honce.1, honce.2, hland.1⟩

/-- C1 (witness for the amended claim): a single non-skipped combination. -/
theorem sweep_simulates_once_witness :
    (List.Forall₂ (fun (tk : ℕ) (l : List ℝ) => tk < l.length)
      [0, 0, 0, 0, 0, 0] [[2], [3], [1], [1], [1], [1]] ∧
     ¬ skipCombo (comboAt [2] [3] [1] [1] [1] [1] [0, 0, 0, 0, 0, 0])) ∧
    (((sweepParameterSpace (fun _ _ _ => ([], [])) (fun _ _ _ => ((0, 0, 0), 0))
        [2] [3] [1] [1] [1] [1]).2.2).countP
      (fun e => e.1 == flattenIndex [0, 0, 0, 0, 0, 0]
        ([[2], [3], [1], [1], [1], [1]].map List.length)) = 1 ∧
     (flattenIndex [0, 0, 0, 0, 0, 0] ([[2], [3], [1], [1], [1], [1]].map List.length),
       comboAt [2] [3] [1] [1] [1] [1] [0, 0, 0, 0, 0, 0]) ∈
       (sweepParameterSpace (fun _ _ _ => ([], [])) (fun _ _ _ => ((0, 0, 0), 0))
         [2] [3] [1] [1] [1] [1]).2.2 ∧
     (sweepParameterSpace (fun _ _ _ => ([], [])) (fun _ _ _ => ((0, 0, 0), 0))
        [2] [3] [1] [1] [1] [1]).1 [0, 0, 0, 0, 0, 0]
      = (sweepFit (fun _ _ _ => ([], [])) (fun _ _ _ => ((0, 0, 0), 0))
          (comboAt [2] [3] [1] [1] [1] [1] [0, 0, 0, 0, 0, 0])).1.1) := by
  have h1 : List.Forall₂ (fun (tk : ℕ) (l : List ℝ) => tk < l.length)
      [0, 0, 0, 0, 0, 0] [[2], [3], [1], [1], [1], [1]] := by
    simp [List.forall₂_cons]
  have h2 : ¬ skipCombo (comboAt [2] [3] [1] [1] [1] [1] [0, 0, 0, 0, 0, 0]) := by
    norm_num [skipCombo, comboAt]
  exact ⟨⟨h1, h2⟩, sweep_simulates_once _ _ [2] [3] [1] [1] [1] [1]
    [0, 0, 0, 0, 0, 0] h1 h2⟩

/-! ### `fidelity_from_scratch` (data_analysis_tools.py, lines 36-206) and
`fid_single_qubit` (lines 244-302)

The circuit construction, transpilation, noise model and backend execution
are external library calls; they are collected in a `SimEnv` oracle record
over an abstract snapshot type `σ`.  The embedded function keeps the
repository's own control flow: gate-time resolution with its fallback
warning, the `data_process_type` / `snapshot_type` dispatch, the
`try: set_option / except: default to density_matrix` guard, and the shapes
of the returned fidelity lists.  Executed snapshot data depends on the
backend method that was set (`resultsDm method label`).  `time` is only bound
by the `idle_noise` branch, so the `recovery` return reads it as `none` when
`idle_noise=False` (an unbound local in Python). -/

/-- The three possibilities for the `gate_times` argument: a dict, a
`GateTimes` object, or anything else (the `isinstance` checks fail). -/
inductive GateTimesInput
  | dict (d : List (String × ℝ))
  | obj (g : GateTimes)
  | invalid

/-- `Modelled from the spec:` `WACQT_gate_times`, the default gate-time
configuration from `custom_noise_models.py` (not in src).  The claims only
depend on its identity, not its contents. -/
noncomputable def WACQT_gate_times : GateTimes := ⟨20, 100, []⟩

/-- Oracles for everything `fidelity_from_scratch` / `fid_single_qubit`
delegate to the external simulation library, over an abstract density-matrix
snapshot type `σ`. -/
structure SimEnv (σ : Type) where
  getGateTimes : List (String × ℝ) → GateTimes
  encodedState : ℝ → ℝ → σ
  stateFidelity : σ → σ → ℝ
  validMethod : String → Bool
  resultsDm : String → String → σ
  resultsExp : String → String → ℝ
  idleTime : GateTimes → List (String × ℝ)
  circuitTime : GateTimes → List (String × ℝ)
  emptyDm : String → σ
  emptyExp : String → ℝ
  postSelectDm : ℕ → List σ
  postSelectExp : ℕ → List ℝ
  postSelectCounts : ℕ → List ℕ
  singleDm : String → σ
  singleExp : String → ℝ

def gateTimesWarning : String := "Invalid gate times, assuming WACQT_gate_times"

def methodWarning : String := "Invalid simulator type, defaulting to density_matrix"

/-- Lines 84-90: dict inputs are completed from the defaults, `GateTimes`
objects pass through, anything else warns and falls back to
`WACQT_gate_times`.  The Bool records whether the warning fired. -/
noncomputable def resolveGateTimes {σ : Type} (env : SimEnv σ) :
    GateTimesInput → Bool × GateTimes
  | .dict d => (false, env.getGateTimes d)
  | .obj g => (false, g)
  | .invalid => (true, WACQT_gate_times)

/-- Lines 162-167: `simulator.set_option('method', simulator_type)` guarded by
`try/except`; on failure print a warning and use `'density_matrix'`.  The Bool
records whether the warning fired. -/
def chooseMethod {σ : Type} (env : SimEnv σ) (simulatorType : String) : Bool × String :=
  if env.validMethod simulatorType then (false, simulatorType)
  else (true, "density_matrix")

/-- The possible normal returns of `fidelity_from_scratch`: a fidelity list
with the time dict, a fidelity list with post-selection counts, or the bare
`[]`. -/
inductive FFSResult (σ : Type)
  | fidTime (fids : List ℝ) (time : List (String × ℝ))
  | fidCounts (fids : List ℝ) (counts : List ℕ)
  | emptyList

/-- The body of `fidelity_from_scratch` after gate-time resolution, returning
the emitted warnings alongside the result (`none` = a Python exception such
as the unbound `time`). -/
noncomputable def fidelityFromScratchCore {σ : Type} (env : SimEnv σ) (nCycles : ℕ)
    (warnings0 : List String) (fullGateTimes : GateTimes)
    (dataProcessType : String) (idleNoise : Bool) (snapshotType : String)
    (theta phi : ℝ) (simulatorType : String) :
    List String × Option (FFSResult σ) :=
  let trivialState := env.encodedState theta phi
  if dataProcessType = "empty_circuit" then
    let time := env.circuitTime fullGateTimes
    let fids :=
      if snapshotType = "dm" ∨ snapshotType = "density_matrix" then
        (List.range (nCycles + 1)).map fun k =>
          env.stateFidelity (env.emptyDm ("dm_" ++ toString k)) trivialState
      else if snapshotType = "exp" ∨ snapshotType = "expectation_value" then
        (List.range (nCycles + 1)).map fun k => env.emptyExp ("exp_" ++ toString k)
      else []
    (warnings0, some (FFSResult.fidTime fids time))
  else
    let timeOpt := if idleNoise then some (env.idleTime fullGateTimes) else none
    let mw := chooseMethod env simulatorType
    let warnings := warnings0 ++ (if mw.1 then [methodWarning] else [])
    if dataProcessType = "recovery" ∨ dataProcessType = "none" then
      let fids :=
        if snapshotType = "dm" ∨ snapshotType = "density_matrix" then
          (List.range (nCycles + 1)).map fun k =>
            env.stateFidelity (env.resultsDm mw.2 ("dm_" ++ toString k)) trivialState
        else if snapshotType = "exp" ∨ snapshotType = "expectation_value" then
          (List.range (nCycles + 1)).map fun k => env.resultsExp mw.2 ("exp_" ++ toString k)
        else []
      match timeOpt with
      | some time => (warnings, some (FFSResult.fidTime fids time))
      | none => (warnings, none)
    else if dataProcessType = "post_select" then
      let fidsOpt :=
        if snapshotType = "dm" ∨ snapshotType = "density_matrix" then
          some ((env.postSelectDm nCycles).map fun s => env.stateFidelity s trivialState)
        else if snapshotType = "exp" ∨ snapshotType = "expectation_value" then
          some (env.postSelectExp nCycles)
        else none
      match fidsOpt with
      | some fids => (warnings, some (FFSResult.fidCounts fids (env.postSelectCounts nCycles)))
      | none => (warnings, none)
    else if dataProcessType = "post_process" then
      (warnings ++ ["Warning: Post-process not implemented, exiting..."],
        some FFSResult.emptyList)
    else
      (warnings ++ ["Warning: No matching data_process_type"], some FFSResult.emptyList)

/-- Embedding of `fidelity_from_scratch`. -/
noncomputable def fidelityFromScratch {σ : Type} (env : SimEnv σ) (nCycles : ℕ)
    (gateTimes : GateTimesInput) (dataProcessType : String) (idleNoise : Bool)
    (snapshotType : String) (theta phi : ℝ) (simulatorType : String) :
    List String × Option (FFSResult σ) :=
  let wg := resolveGateTimes env gateTimes
  fidelityFromScratchCore env nCycles (if wg.1 then [gateTimesWarning] else []) wg.2
    dataProcessType idleNoise snapshotType theta phi simulatorType

theorem fidelityFromScratchCore_warnings_shift {σ : Type} (env : SimEnv σ) (n : ℕ)
    (w : String) (ws : List String) (g : GateTimes) (dpt : String) (idle : Bool)
    (st : String) (theta phi : ℝ) (sim : String) :
    (fidelityFromScratchCore env n (w :: ws) g dpt idle st theta phi sim).1
      = w :: (fidelityFromScratchCore env n ws g dpt idle st theta phi sim).1 ∧
    (fidelityFromScratchCore env n (w :: ws) g dpt idle st theta phi sim).2
      = (fidelityFromScratchCore env n ws g dpt idle st theta phi sim).2 := by
  unfold fidelityFromScratchCore
  split_ifs <;> cases idle <;> simp_all

/-- C5: an invalid `gate_times` argument warns and proceeds with
`WACQT_gate_times` (otherwise identical run), and an invalid
`simulator_type` prints the warning, sets the method to `'density_matrix'`
and still executes the circuit (the run agrees with a run whose method is
`'density_matrix'`).  (`data_process_type ≠ 'empty_circuit'`, whose branch
returns before the `try/except`.) -/
theorem fidelityFromScratch_fallbacks {σ : Type} (env : SimEnv σ) (n : ℕ)
    (dpt : String) (idle : Bool) (st : String) (theta phi : ℝ) (simType : String)
    (hm : env.validMethod simType = false)
    (hdm : env.validMethod "density_matrix" = true)
    (hne : dpt ≠ "empty_circuit") :
    resolveGateTimes env GateTimesInput.invalid = (true, WACQT_gate_times) ∧
    (fidelityFromScratch env n GateTimesInput.invalid dpt idle st theta phi simType).1
      = gateTimesWarning ::
        (fidelityFromScratch env n (GateTimesInput.obj WACQT_gate_times)
          dpt idle st theta phi simType).1 ∧
    (fidelityFromScratch env n GateTimesInput.invalid dpt idle st theta phi simType).2
      = (fidelityFromScratch env n (GateTimesInput.obj WACQT_gate_times)
          dpt idle st theta phi simType).2 ∧
    chooseMethod env simType = (true, "density_matrix") ∧
    methodWarning ∈
      (fidelityFromScratch env n GateTimesInput.invalid dpt idle st theta phi simType).1 ∧
    (fidelityFromScratch env n GateTimesInput.invalid dpt idle st theta phi simType).2
      = (fidelityFromScratch env n GateTimesInput.invalid dpt idle st theta phi
          "density_matrix").2 := by
  have hcm : chooseMethod env simType = (true, "density_matrix") := by
    simp [chooseMethod, hm]
  have hcm' : chooseMethod env "density_matrix" = (false, "density_matrix") := by
    simp [chooseMethod, hdm]
  have hshift := fidelityFromScratchCore_warnings_shift env n gateTimesWarning []
    WACQT_gate_times dpt idle st theta phi simType
  refine ⟨rfl, ?_, ?_, hcm, ?_, ?_⟩
  · exact hshift.1
  · exact hshift.2
  · show methodWarning ∈ (fidelityFromScratchCore env n [gateTimesWarning]
      WACQT_gate_times dpt idle st theta phi simType).1
    unfold fidelityFromScratchCore
    rw [if_neg hne]
    simp only [hcm]
    split_ifs <;> cases idle <;> simp_all [methodWarning]
  · show (fidelityFromScratchCore env n [gateTimesWarning]
      WACQT_gate_times dpt idle st theta phi simType).2
      = (fidelityFromScratchCore env n [gateTimesWarning]
      WACQT_gate_times dpt idle st theta phi "density_matrix").2
    unfold fidelityFromScratchCore
    rw [if_neg hne, if_neg hne]
    simp only [hcm, hcm']
    split_ifs <;> cases idle <;> simp_all

/-- A concrete oracle environment over `σ = Unit` in which only
`'density_matrix'` is a valid backend method. -/
noncomputable def envDmOnly : SimEnv Unit where
  getGateTimes := fun _ => WACQT_gate_times
  encodedState := fun _ _ => ()
  stateFidelity := fun _ _ => 0
  validMethod := fun s => s == "density_matrix"
  resultsDm := fun _ _ => ()
  resultsExp := fun _ _ => 0
  idleTime := fun _ => []
  circuitTime := fun _ => []
  emptyDm := fun _ => ()
  emptyExp := fun _ => 0
  postSelectDm := fun _ => []
  postSelectExp := fun _ => []
  postSelectCounts := fun _ => []
  singleDm := fun _ => ()
  singleExp := fun _ => 0

/-- C5 (witness): run `envDmOnly` with `simulator_type = 'foo'` and
`data_process_type = 'recovery'`. -/
theorem fidelityFromScratch_fallbacks_witness :
    (envDmOnly.validMethod "foo" = false ∧
     envDmOnly.validMethod "density_matrix" = true ∧
     ("recovery" : String) ≠ "empty_circuit") ∧
    chooseMethod envDmOnly "foo" = (true, "density_matrix") := by
  refine ⟨⟨by decide, by decide, by decide⟩, ?_⟩
  exact (fidelityFromScratch_fallbacks envDmOnly 1 "recovery" true "dm" 0 0 "foo"
    (by decide) (by decide) (by decide)).2.2.2.1

/-- C6: with `data_process_type='recovery'` and `snapshot_type='dm'` (and
`idle_noise` at its default `True`, which is what binds `time`), the function
returns the pair of the fidelity list and the time dict, where the list has
exactly `n_cycles+1` entries and entry `k` is
`state_fidelity(results.data()['dm_k'], get_encoded_state(theta, phi))`. -/
theorem fidelityFromScratch_recovery_dm {σ : Type} (env : SimEnv σ) (n : ℕ)
    (gt : GateTimesInput) (theta phi : ℝ) (simType : String) :
    (fidelityFromScratch env n gt "recovery" true "dm" theta phi simType).2
      = some (FFSResult.fidTime
          ((List.range (n + 1)).map fun k =>
            env.stateFidelity (env.resultsDm (chooseMethod env simType).2
              ("dm_" ++ toString k)) (env.encodedState theta phi))
          (env.idleTime (resolveGateTimes env gt).2)) ∧
    ((List.range (n + 1)).map fun k =>
      env.stateFidelity (env.resultsDm (chooseMethod env simType).2
        ("dm_" ++ toString k)) (env.encodedState theta phi)).length = n + 1 := by
  constructor
  · simp [fidelityFromScratch, fidelityFromScratchCore]
  · simp

/-- Embedding of `fid_single_qubit`: the fidelity list starts with the
literal `1.0` (`fidelities = [1.0]  # The initial state`), followed by one
`state_fidelity(snap_(i+1), start)` per interior snapshot of the idle-noise
time dict. -/
noncomputable def fidSingleQubit {σ : Type} (env : SimEnv σ) (nCycles nShots : ℕ)
    (gateTimes : GateTimesInput) (snapshotType : String) (tOne tTwo theta phi : ℝ) :
    List ℝ × List (String × ℝ) :=
  let wg := resolveGateTimes env gateTimes
  let time := env.idleTime wg.2
  let tail :=
    if snapshotType = "dm" ∨ snapshotType = "density_matrix" then
      (List.range (time.length - 2)).map fun i =>
        env.stateFidelity (env.singleDm ("snap_" ++ toString (i + 1))) (env.singleDm "start")
    else if snapshotType = "exp" ∨ snapshotType = "expectation_value" then
      (List.range (time.length - 2)).map fun i => env.singleExp ("snap_" ++ toString (i + 1))
    else []
  (1.0 :: tail, time)

/-- C8: for every `n_cycles` and `n_shots` (and any other arguments), the
fidelity list returned by `fid_single_qubit` has `1.0` as its first element:
the state fidelity at time 0, appended before any snapshot data is read. -/
theorem fidSingleQubit_first_is_one {σ : Type} (env : SimEnv σ) (nCycles nShots : ℕ)
    (gt : GateTimesInput) (st : String) (tOne tTwo theta phi : ℝ) :
    (fidSingleQubit env nCycles nShots gt st tOne tTwo theta phi).1.head? = some 1.0 := by
  simp [fidSingleQubit]

/-! ### `project_dm_to_logical_subspace_V1` / `_V3` (idle_comparison.py, lines 83-141)

`V1` projects a 32×32 density matrix to the 2×2 logical matrix by the direct
matrix elements `logical[i] @ rho @ logical[j] / P_L`; `V3` decomposes the
same state over the logical Pauli operators:
`rho_L = sum_k pauli_matrices[k] * trace(rho @ logical_pauli_matrices[k]) / (2*P_L)`
with `logical_pauli_matrices = (I_L, XXXXX@I_L, YYYYY@I_L, ZZZZZ@I_L)` and
`I_L = |0_L><0_L| + |1_L><1_L|`.

`idle_comparison.py` imports `logical_states` from
`simulator_program/stabilizers.py`, which is not in the sources, but the
repository carries its own copy of the same [[5,1,3]] codewords:
`logical_states` in `noise_fidelity_plot.py` (lines 27-65) sets every
amplitude explicitly, and those amplitudes are recorded here by the integer
patterns `c0`/`c1` (the listed `logical_1` equals `X^{⊗5} logical_0`
entry by entry).  `Pauli('XXXXX').to_matrix()` etc. are the qiskit five-fold
Kronecker powers, written out over `Fin 32` bitwise: `X^{⊗5}` flips all five
bits (`comp5`), `Z^{⊗5}` is diagonal with parity signs (`sgn5`), and
`Y^{⊗5} = i·X^{⊗5}Z^{⊗5}`. -/

/-- All five bits flipped: `31 - v`. -/
def comp5 (v : Fin 32) : Fin 32 := ⟨31 - v.val, by omega⟩

/-- Number of set bits among the five low bits. -/
def popcount5 (n : ℕ) : ℕ := n % 2 + n / 2 % 2 + n / 4 % 2 + n / 8 % 2 + n / 16 % 2

/-- Parity sign `(-1)^popcount`. -/
def sgn5 (n : ℕ) : ℤ := (-1) ^ popcount5 n

/-- 4 times the amplitudes of `logical_0` as set in
`noise_fidelity_plot.py` lines 28-43: basis strings
`00000, 10010, 01001, 10100, 01010, 00101` carry `+1/4` and
`11011, 00110, 11000, 11101, 00011, 11110, 01111, 10001, 01100, 10111`
carry `-1/4`, indexed by the value of the bit string. -/
def c0 : Fin 32 → ℤ :=
  ![1, 0, 0, -1, 0, 1, -1, 0, 0, 1, 1, 0, -1, 0, 0, -1,
    0, -1, 1, 0, 1, 0, 0, -1, -1, 0, 0, -1, 0, -1, -1, 0]

/-- 4 times the amplitudes of `logical_1` (`noise_fidelity_plot.py` lines
45-61): entry by entry it is `logical_0` with all five bits flipped,
`logical_1[v] = logical_0[31-v]`. -/
def c1 : Fin 32 → ℤ := fun v => c0 (comp5 v)

theorem comp5_comp5 : ∀ v : Fin 32, comp5 (comp5 v) = v := by decide

theorem sgn5_c0 : ∀ v : Fin 32, sgn5 v.val * c0 v = c0 v := by decide

theorem sgn5_c1 : ∀ v : Fin 32, sgn5 v.val * c1 v = -c1 v := by decide

theorem sgn5_comp5_c0 : ∀ v : Fin 32, sgn5 (comp5 v).val * c0 v = -c0 v := by decide

theorem dot00 : (∑ v : Fin 32, c0 v * c0 v) = 16 := by decide

theorem dot11 : (∑ v : Fin 32, c1 v * c1 v) = 16 := by decide

/-- The pair returned by `logical_states(include_ancillas=None)`. -/
noncomputable def logicalState : Fin 2 → Fin 32 → ℂ :=
  ![fun v => (c0 v : ℂ) / 4, fun v => (c1 v : ℂ) / 4]

/-- `Pauli('XXXXX').to_matrix()`. -/
noncomputable def X5 : Matrix (Fin 32) (Fin 32) ℂ :=
  Matrix.of fun i j => if j = comp5 i then 1 else 0

/-- `Pauli('ZZZZZ').to_matrix()`. -/
noncomputable def Z5 : Matrix (Fin 32) (Fin 32) ℂ :=
  Matrix.of fun i j => if j = i then (sgn5 i.val : ℂ) else 0

/-- `Pauli('YYYYY').to_matrix()`. -/
noncomputable def Y5 : Matrix (Fin 32) (Fin 32) ℂ :=
  Matrix.of fun i j => if j = comp5 i then Complex.I * (sgn5 j.val : ℂ) else 0

theorem X5_mulVec_L0 : X5 *ᵥ logicalState 0 = logicalState 1 := by
  funext v
  simp only [X5, Matrix.mulVec, Matrix.dotProduct, Matrix.of_apply, logicalState,
    Matrix.cons_val_zero, Matrix.cons_val_one, Matrix.head_cons]
  rw [Finset.sum_eq_single (comp5 v)]
  · simp [c1]
  · intro b _ hb
    simp [hb]
  · simp

theorem X5_mulVec_L1 : X5 *ᵥ logicalState 1 = logicalState 0 := by
  funext v
  simp only [X5, Matrix.mulVec, Matrix.dotProduct, Matrix.of_apply, logicalState,
    Matrix.cons_val_zero, Matrix.cons_val_one, Matrix.head_cons]
  rw [Finset.sum_eq_single (comp5 v)]
  · simp [c1, comp5_comp5]
  · intro b _ hb
    simp [hb]
  · simp

theorem Z5_mulVec_L0 : Z5 *ᵥ logicalState 0 = logicalState 0 := by
  funext v
  simp only [Z5, Matrix.mulVec, Matrix.dotProduct, Matrix.of_apply, logicalState,
    Matrix.cons_val_zero]
  rw [Finset.sum_eq_single v]
  · have h : ((sgn5 v.val : ℤ) : ℂ) * ((c0 v : ℂ) / 4) = ((sgn5 v.val * c0 v : ℤ) : ℂ) / 4 := by
      push_cast
      ring
    rw [if_pos rfl, h, sgn5_c0 v]
  · intro b _ hb
    simp [hb]
  · simp

theorem Z5_mulVec_L1 : Z5 *ᵥ logicalState 1 = -logicalState 1 := by
  funext v
  simp only [Z5, Matrix.mulVec, Matrix.dotProduct, Matrix.of_apply, logicalState,
    Matrix.cons_val_one, Matrix.head_cons, Pi.neg_apply]
  rw [Finset.sum_eq_single v]
  · have h : ((sgn5 v.val : ℤ) : ℂ) * ((c1 v : ℂ) / 4) = ((sgn5 v.val * c1 v : ℤ) : ℂ) / 4 := by
      push_cast
      ring
    rw [if_pos rfl, h, sgn5_c1 v]
    push_cast
    ring
  · intro b _ hb
    simp [hb]
  · simp

theorem Y5_mulVec_L0 : Y5 *ᵥ logicalState 0 = Complex.I • logicalState 1 := by
  funext v
  simp only [Y5, Matrix.mulVec, Matrix.dotProduct, Matrix.of_apply, logicalState,
    Matrix.cons_val_zero, Matrix.cons_val_one, Matrix.head_cons, Pi.smul_apply,
    smul_eq_mul]
  rw [Finset.sum_eq_single (comp5 v)]
  · have h : Complex.I * ((sgn5 (comp5 v).val : ℤ) : ℂ) * ((c0 (comp5 v) : ℂ) / 4)
        = Complex.I * (((sgn5 (comp5 v).val * c0 (comp5 v) : ℤ) : ℂ) / 4) := by
      push_cast
      ring
    rw [if_pos rfl, h, sgn5_c0 (comp5 v)]
    simp [c1]
  · intro b _ hb
    simp [hb]
  · simp

theorem Y5_mulVec_L1 : Y5 *ᵥ logicalState 1 = (-Complex.I) • logicalState 0 := by
  funext v
  simp only [Y5, Matrix.mulVec, Matrix.dotProduct, Matrix.of_apply, logicalState,
    Matrix.cons_val_zero, Matrix.cons_val_one, Matrix.head_cons, Pi.smul_apply,
    smul_eq_mul]
  rw [Finset.sum_eq_single (comp5 v)]
  · have hc : c1 (comp5 v) = c0 v := by
      simp [c1, comp5_comp5]
    have h : Complex.I * ((sgn5 (comp5 v).val : ℤ) : ℂ) * ((c1 (comp5 v) : ℂ) / 4)
        = Complex.I * (((sgn5 (comp5 v).val * c0 v : ℤ) : ℂ) / 4) := by
      rw [hc]
      push_cast
      ring
    rw [if_pos rfl, h, sgn5_comp5_c0 v]
    push_cast
    ring
  · intro b _ hb
    simp [hb]
  · simp

/-- The `pauli_matrices` array of `project_dm_to_logical_subspace_V3`. -/
noncomputable def pauli2 : Fin 4 → Matrix (Fin 2) (Fin 2) ℂ :=
  ![!![1, 0; 0, 1], !![0, 1; 1, 0], !![0, -Complex.I; Complex.I, 0], !![1, 0; 0, -1]]

/-- The five-qubit Paulis `(identity, XXXXX, YYYYY, ZZZZZ)`. -/
noncomputable def pauli32 : Fin 4 → Matrix (Fin 32) (Fin 32) ℂ := ![1, X5, Y5, Z5]

/-- `I_L = np.outer(logical[0], logical[0]) + np.outer(logical[1], logical[1])`. -/
noncomputable def I_L : Matrix (Fin 32) (Fin 32) ℂ :=
  Matrix.vecMulVec (logicalState 0) (logicalState 0)
    + Matrix.vecMulVec (logicalState 1) (logicalState 1)

/-- The `logical_pauli_matrices` array: each Pauli right-multiplied by the
code-space projector. -/
noncomputable def logicalPauli (k : Fin 4) : Matrix (Fin 32) (Fin 32) ℂ :=
  pauli32 k * I_L

/-- `V3`'s `P_L = np.trace(rho @ logical_pauli_matrices[0])`. -/
noncomputable def codeOverlap (rho : Matrix (Fin 32) (Fin 32) ℂ) : ℂ :=
  (rho * logicalPauli 0).trace

/-- `V1`'s `P_L`, accumulated as `sum_i logical[i] @ rho @ logical[i]`. -/
noncomputable def overlapV1 (rho : Matrix (Fin 32) (Fin 32) ℂ) : ℂ :=
  ∑ i : Fin 2, logicalState i ⬝ᵥ (rho *ᵥ logicalState i)

/-- Embedding of `project_dm_to_logical_subspace_V1`. -/
noncomputable def project_dm_to_logical_subspace_V1 (rho : Matrix (Fin 32) (Fin 32) ℂ) :
    Matrix (Fin 2) (Fin 2) ℂ :=
  Matrix.of fun i j => (logicalState i ⬝ᵥ (rho *ᵥ logicalState j)) / overlapV1 rho

/-- Embedding of `project_dm_to_logical_subspace_V3`. -/
noncomputable def project_dm_to_logical_subspace_V3 (rho : Matrix (Fin 32) (Fin 32) ℂ) :
    Matrix (Fin 2) (Fin 2) ℂ :=
  ∑ k : Fin 4, ((rho * logicalPauli k).trace / (2 * codeOverlap rho)) • pauli2 k

theorem trace_mul_vecMulVec (M : Matrix (Fin 32) (Fin 32) ℂ) (u w : Fin 32 → ℂ) :
    (M * Matrix.vecMulVec u w).trace = w ⬝ᵥ (M *ᵥ u) := by
  simp only [Matrix.trace, Matrix.diag, Matrix.mul_apply, Matrix.vecMulVec_apply,
    Matrix.mulVec, Matrix.dotProduct, Finset.mul_sum]
  exact Finset.sum_congr rfl fun a _ => Finset.sum_congr rfl fun b _ => by ring

theorem codeOverlap_eq (rho : Matrix (Fin 32) (Fin 32) ℂ) :
    codeOverlap rho = overlapV1 rho := by
  unfold codeOverlap logicalPauli
  rw [show pauli32 0 = 1 from rfl, Matrix.one_mul]
  unfold overlapV1 I_L
  rw [Matrix.mul_add, Matrix.trace_add, trace_mul_vecMulVec, trace_mul_vecMulVec,
    Fin.sum_univ_two]

theorem pauli32_action (k : Fin 4) (i : Fin 2) :
    pauli32 k *ᵥ logicalState i
      = (pauli2 k) 0 i • logicalState 0 + (pauli2 k) 1 i • logicalState 1 := by
  fin_cases k <;> fin_cases i <;>
    simp [pauli32, pauli2, Matrix.one_mulVec, X5_mulVec_L0, X5_mulVec_L1,
      Y5_mulVec_L0, Y5_mulVec_L1, Z5_mulVec_L0, Z5_mulVec_L1]

theorem dot_rho_pauli (rho : Matrix (Fin 32) (Fin 32) ℂ) (k : Fin 4) (i : Fin 2) :
    logicalState i ⬝ᵥ (rho *ᵥ (pauli32 k *ᵥ logicalState i))
      = (pauli2 k) 0 i * (logicalState i ⬝ᵥ (rho *ᵥ logicalState 0))
        + (pauli2 k) 1 i * (logicalState i ⬝ᵥ (rho *ᵥ logicalState 1)) := by
  rw [pauli32_action, Matrix.mulVec_add, Matrix.mulVec_smul, Matrix.mulVec_smul,
    Matrix.dotProduct_add, Matrix.dotProduct_smul, Matrix.dotProduct_smul]
  simp [smul_eq_mul]

theorem trace_rho_logicalPauli (rho : Matrix (Fin 32) (Fin 32) ℂ) (k : Fin 4) :
    (rho * logicalPauli k).trace
      = ∑ i : Fin 2, logicalState i ⬝ᵥ (rho *ᵥ (pauli32 k *ᵥ logicalState i)) := by
  unfold logicalPauli I_L
  rw [Matrix.mul_add (pauli32 k), Matrix.mul_add rho, Matrix.trace_add,
    ← Matrix.mul_assoc, ← Matrix.mul_assoc, trace_mul_vecMulVec, trace_mul_vecMulVec,
    Fin.sum_univ_two, Matrix.mulVec_mulVec, Matrix.mulVec_mulVec]

/-- C10: on every 32×32 density matrix with nonzero code-space overlap
(`P_L ≠ 0`), the logical-Pauli expectation decomposition of `V3` produces the
same 2×2 logical density matrix as the direct matrix elements of `V1`. -/
theorem projV3_eq_projV1 (rho : Matrix (Fin 32) (Fin 32) ℂ)
    (hP : codeOverlap rho ≠ 0) :
    project_dm_to_logical_subspace_V3 rho = project_dm_to_logical_subspace_V1 rho := by
  have hC : codeOverlap rho = overlapV1 rho := codeOverlap_eq rho
  have hP2 : overlapV1 rho ≠ 0 := by rwa [hC] at hP
  ext a b
  simp only [project_dm_to_logical_subspace_V3, project_dm_to_logical_subspace_V1,
    Matrix.sum_apply, Matrix.smul_apply, smul_eq_mul, Matrix.of_apply, hC]
  rw [Fin.sum_univ_four]
  simp only [trace_rho_logicalPauli, Fin.sum_univ_two, dot_rho_pauli]
  fin_cases a <;> fin_cases b <;>
    · simp only [pauli2, Matrix.cons_val_zero, Matrix.cons_val_one, Matrix.head_cons,
        Matrix.cons_val', Matrix.head_fin_const, Matrix.empty_val',
        Matrix.cons_val_fin_one, Matrix.of_apply]
      field_simp
      ring_nf
      try simp only [Complex.I_sq]
      try ring

theorem dotL_self_0 : logicalState 0 ⬝ᵥ logicalState 0 = 1 := by
  simp only [logicalState, Matrix.cons_val_zero, Matrix.dotProduct]
  have h : ∀ v : Fin 32, ((c0 v : ℂ) / 4) * ((c0 v : ℂ) / 4)
      = ((c0 v * c0 v : ℤ) : ℂ) / 16 := fun v => by
    push_cast
    ring
  rw [Finset.sum_congr rfl fun v _ => h v, ← Finset.sum_div,
    show (∑ v : Fin 32, ((c0 v * c0 v : ℤ) : ℂ))
      = ((∑ v : Fin 32, c0 v * c0 v : ℤ) : ℂ) by push_cast; rfl, dot00]
  norm_num

theorem dotL_self_1 : logicalState 1 ⬝ᵥ logicalState 1 = 1 := by
  simp only [logicalState, Matrix.cons_val_one, Matrix.head_cons, Matrix.dotProduct]
  have h : ∀ v : Fin 32, ((c1 v : ℂ) / 4) * ((c1 v : ℂ) / 4)
      = ((c1 v * c1 v : ℤ) : ℂ) / 16 := fun v => by
    push_cast
    ring
  rw [Finset.sum_congr rfl fun v _ => h v, ← Finset.sum_div,
    show (∑ v : Fin 32, ((c1 v * c1 v : ℤ) : ℂ))
      = ((∑ v : Fin 32, c1 v * c1 v : ℤ) : ℂ) by push_cast; rfl, dot11]
  norm_num

theorem overlapV1_one : overlapV1 (1 : Matrix (Fin 32) (Fin 32) ℂ) = 2 := by
  unfold overlapV1
  rw [Fin.sum_univ_two, Matrix.one_mulVec, Matrix.one_mulVec, dotL_self_0, dotL_self_1]
  norm_num

/-- C10 (witness): the fully mixed-like `rho = 1` has code-space overlap `2`,
so the two projections agree there. -/
theorem projV3_eq_projV1_witness :
    codeOverlap (1 : Matrix (Fin 32) (Fin 32) ℂ) ≠ 0 ∧
    project_dm_to_logical_subspace_V3 (1 : Matrix (Fin 32) (Fin 32) ℂ)
      = project_dm_to_logical_subspace_V1 (1 : Matrix (Fin 32) (Fin 32) ℂ) := by
  have h : codeOverlap (1 : Matrix (Fin 32) (Fin 32) ℂ) = 2 := by
    rw [codeOverlap_eq, overlapV1_one]
  refine ⟨by rw [h]; norm_num, projV3_eq_projV1 1 (by rw [h]; norm_num)⟩

end QecSim
